import Mathlib

/-!
Shallow embedding of the core of `outlook-mcp` (token lifecycle manager and
progressive email search) and proofs about it.

Conventions: JavaScript timestamps (`Date.now()`, `expires_at`) are `Int`
milliseconds; optional/undefined JS fields are `Option`; JS string
truthiness (`if (s)`) is "present and nonempty"; fallible async operations
are `Except`.
-/

namespace OutlookMcp

/-- JS truthiness of an optional string field: `undefined`, `null` and `""` are falsy. -/
def jsTruthyS : Option String → Bool
  | some s => !s.isEmpty
  | none => false

/-! ## Token manager (`src/auth/token-manager.js`) -/

/-- The cached token record (`cachedTokens`). Fields are optional because the
JSON file may lack any of them; the code tests them for truthiness. -/
structure Tokens where
  access_token : Option String
  refresh_token : Option String
  expires_at : Option Int
  expires_in : Option Int
  scope : Option String
deriving Repr, DecidableEq

/-- `REFRESH_BUFFER_MS = 5 * 60 * 1000` — refresh 5 minutes before expiry. -/
def REFRESH_BUFFER_MS : Int := 5 * 60 * 1000

/-- `needsRefresh()`: true when there is no cached record, no `expires_at`,
or `Date.now() >= expires_at - REFRESH_BUFFER_MS`. -/
def needsRefresh (cached : Option Tokens) (now : Int) : Bool :=
  match cached with
  | none => true
  | some t =>
    match t.expires_at with
    | none => true
    | some e => decide (now ≥ e - REFRESH_BUFFER_MS)

/-- Parsed JSON body of the token-endpoint response (`responseBody`).
Every field may be absent in the JSON. -/
structure RefreshBody where
  access_token : Option String
  refresh_token : Option String
  expires_in : Int
  scope : Option String
  error_description : Option String
deriving Repr, DecidableEq

/-- The ways `refreshAccessToken`'s promise can reject. -/
inductive RefreshErr
  | httpError (status : Nat) (desc : Option String)
  | parseError
  | transportError
deriving Repr, DecidableEq

/-- Result of one settled renewal attempt: the in-memory `cachedTokens`
afterwards, the promise's resolution, and the record written to the token
file by `saveTokenCache` (if any). -/
structure RefreshStep where
  cache : Tokens
  result : Except RefreshErr Tokens
  persisted : Option Tokens
deriving Repr

/-- The `'end'` handler of the HTTPS response inside `refreshAccessToken`:
given the prior `cachedTokens`, the current time, the status code and the
result of `JSON.parse` on the body. On a 2xx status it merges the response
into the record (new access token; new refresh token only if the server
supplied a truthy one; `expires_at = now + expires_in*1000`;
`scope = responseBody.scope || cachedTokens.scope`), persists the merged
record via `saveTokenCache`, and resolves with it; otherwise it rejects,
persists nothing, and leaves the record untouched. -/
def refreshEnd (tokens : Tokens) (now : Int) (status : Nat)
    (body : Except Unit RefreshBody) : RefreshStep :=
  match body with
  | .error _ => ⟨tokens, .error .parseError, none⟩
  | .ok b =>
    if 200 ≤ status ∧ status < 300 then
      let merged : Tokens :=
        { access_token := b.access_token
          refresh_token := if jsTruthyS b.refresh_token then b.refresh_token
                           else tokens.refresh_token
          expires_in := some b.expires_in
          expires_at := some (now + b.expires_in * 1000)
          scope := if jsTruthyS b.scope then b.scope else tokens.scope }
      ⟨merged, .ok merged, some merged⟩
    else
      ⟨tokens, .error (.httpError status b.error_description), none⟩

/-- Outcome of the renewal HTTPS exchange: either a response (status code and
body-parse result) reached the `'end'` handler, or the request errored at the
transport level (`req.on('error')`). -/
inductive NetResult
  | response (status : Nat) (body : Except Unit RefreshBody)
  | netError
deriving Repr

/-- The settled outcome of one `refreshAccessToken` network attempt. A
transport error rejects, persists nothing, and leaves the record untouched. -/
def refreshOutcome (tokens : Tokens) (now : Int) (net : NetResult) : RefreshStep :=
  match net with
  | .netError => ⟨tokens, .error .transportError, none⟩
  | .response status body => refreshEnd tokens now status body

/-- `loadTokenCache()`: `fileContents = none` models a missing/unreadable
file, `some none` a JSON parse failure, `some (some t)` a parsed record.
The parsed record is returned (and cached) only when `access_token` is
truthy. -/
def loadTokenCache (fileContents : Option (Option Tokens)) : Option Tokens :=
  match fileContents with
  | none => none
  | some none => none
  | some (some t) => if jsTruthyS t.access_token then some t else none

/-- `getAccessToken()`, with the environment made explicit: the current cache,
the token file contents (consulted only when the cache is empty), the clock,
and the network outcome of a renewal attempt (consulted only when one is
made). Returns the resolved access token (or `none`) and the cache
afterwards. The `catch` around `await refreshAccessToken()` maps every
rejection to `none`. -/
def getAccessToken (cached : Option Tokens) (fileContents : Option (Option Tokens))
    (now : Int) (net : NetResult) : Option String × Option Tokens :=
  let c := match cached with
    | some t => some t
    | none => loadTokenCache fileContents
  match c with
  | none => (none, none)
  | some t =>
    if !jsTruthyS t.access_token then (none, some t)
    else if needsRefresh (some t) now then
      if jsTruthyS t.refresh_token then
        let step := refreshOutcome t now net
        match step.result with
        | .ok _ => (step.cache.access_token, some step.cache)
        | .error _ => (none, some step.cache)
      else (none, some t)
    else (t.access_token, some t)

/-! ## Single-flight refresh (`refreshPromise` in `src/auth/token-manager.js`)

JavaScript is single-threaded, so every synchronous run-to-completion block
is atomic. The blocks that touch the attempt slot are: the synchronous
prefix of `refreshAccessToken` (check `refreshPromise`, possibly create the
promise and issue the network request) and the settlement handlers
(`res.on('end')` / `req.on('error')`, which null the slot before
resolving/rejecting). We model the slot state and those atomic events. -/

/-- State of the module-level single-flight machinery: the attempt slot
(`refreshPromise`, holding an attempt id when an attempt is in flight), a
counter for fresh attempt ids, and the number of renewal network requests
issued so far. -/
structure FlightState where
  refreshPromise : Option Nat
  nextId : Nat
  requests : Nat
deriving Repr, DecidableEq

/-- The synchronous prefix of `refreshAccessToken` (assuming a refresh token
is present): if `refreshPromise` is non-null the caller gets that promise and
no request is made; otherwise a new promise is stored in the slot and one
network request is issued. Returns the attempt id the caller awaits. -/
def refreshCall (s : FlightState) : Nat × FlightState :=
  match s.refreshPromise with
  | some p => (p, s)
  | none =>
    (s.nextId,
      { refreshPromise := some s.nextId
        nextId := s.nextId + 1
        requests := s.requests + 1 })

/-- The settlement handler of the in-flight attempt (`res.on('end')` or
`req.on('error')`): it sets `refreshPromise = null` before resolving or
rejecting, clearing the slot whatever the outcome. -/
def refreshSettle (s : FlightState) : FlightState :=
  { s with refreshPromise := none }

/-- `n` consecutive invocations of the synchronous prefix of
`refreshAccessToken` with no settlement in between (i.e. `n` concurrent
callers racing while an attempt may be in flight). Returns the attempt ids
handed to the callers, in order, and the final state. -/
def runCalls (s : FlightState) : Nat → List Nat × FlightState
  | 0 => ([], s)
  | n + 1 =>
    let (p, s1) := refreshCall s
    let (ps, s2) := runCalls s1 n
    (p :: ps, s2)

theorem runCalls_inflight (p : Nat) (s : FlightState) (h : s.refreshPromise = some p) :
    ∀ n, runCalls s n = (List.replicate n p, s) := by
  intro n
  induction n with
  | zero => simp [runCalls]
  | succ n ih =>
    simp only [runCalls, refreshCall, h, List.replicate]
    rw [ih]

/-- C1: any number of concurrent `refreshAccessToken` invocations with no
settlement in between all await one and the same promise `p` (so they all
receive the same resolution); at most one renewal network request is issued
(exactly one when the slot started empty, none when an attempt was already
in flight, in which case the state is unchanged); and the settlement
handler clears the attempt slot whatever the outcome. -/
theorem refresh_single_flight (s0 : FlightState) (n : Nat) (hn : 1 ≤ n) :
    ∃ p s1, runCalls s0 n = (List.replicate n p, s1) ∧
      s1.refreshPromise = some p ∧
      s1.requests = s0.requests + (match s0.refreshPromise with | some _ => 0 | none => 1) ∧
      (∀ q, s0.refreshPromise = some q → p = q ∧ s1 = s0) ∧
      (∀ (α : Type) (res : Nat → α), (List.replicate n p).map res = List.replicate n (res p)) ∧
      (refreshSettle s1).refreshPromise = none := by
  match h0 : s0.refreshPromise with
  | some q =>
    refine ⟨q, s0, runCalls_inflight q s0 h0 n, h0, by simp [h0], ?_, ?_, rfl⟩
    · intro q' hq'
      exact ⟨Option.some.inj hq', rfl⟩
    · intro α res
      simp
  | none =>
    obtain ⟨m, rfl⟩ : ∃ m, n = m + 1 := ⟨n - 1, (Nat.succ_pred_eq_of_pos hn).symm⟩
    refine ⟨s0.nextId,
      { refreshPromise := some s0.nextId, nextId := s0.nextId + 1, requests := s0.requests + 1 },
      ?_, rfl, by simp [h0], ?_, ?_, rfl⟩
    · simp only [runCalls, refreshCall, h0]
      rw [runCalls_inflight s0.nextId _ rfl m]
      simp [List.replicate]
    · intro q hq
      exact Option.noConfusion hq
    · intro α res
      simp

/-- Closed witness for `refresh_single_flight`: three concurrent callers
starting from an empty slot. -/
theorem refresh_single_flight_witness :
    ∃ p s1, runCalls ⟨none, 0, 0⟩ 3 = (List.replicate 3 p, s1) ∧
      s1.refreshPromise = some p ∧
      s1.requests = (FlightState.mk none 0 0).requests +
        (match (FlightState.mk none 0 0).refreshPromise with | some _ => 0 | none => 1) ∧
      (∀ q, (FlightState.mk none 0 0).refreshPromise = some q → p = q ∧ s1 = ⟨none, 0, 0⟩) ∧
      (∀ (α : Type) (res : Nat → α), (List.replicate 3 p).map res = List.replicate 3 (res p)) ∧
      (refreshSettle s1).refreshPromise = none :=
  refresh_single_flight ⟨none, 0, 0⟩ 3 (by decide)

/-- C4: a successful renewal replaces the access token, sets
`expires_at = now + expires_in * 1000`, keeps the old refresh token unless
the server supplied a (truthy) new one, keeps the old scope unless one was
supplied, and persists exactly the merged record; a failed attempt — non-2xx
status, unparseable body, or transport error — leaves the prior record
unchanged in every field and persists nothing. -/
theorem refresh_merge_atomic (t : Tokens) (now : Int) :
    (∀ status b, 200 ≤ status → status < 300 →
      (refreshEnd t now status (.ok b)).cache.access_token = b.access_token ∧
      (refreshEnd t now status (.ok b)).cache.expires_at = some (now + b.expires_in * 1000) ∧
      (jsTruthyS b.refresh_token = true →
        (refreshEnd t now status (.ok b)).cache.refresh_token = b.refresh_token) ∧
      (jsTruthyS b.refresh_token = false →
        (refreshEnd t now status (.ok b)).cache.refresh_token = t.refresh_token) ∧
      (jsTruthyS b.scope = true → (refreshEnd t now status (.ok b)).cache.scope = b.scope) ∧
      (jsTruthyS b.scope = false → (refreshEnd t now status (.ok b)).cache.scope = t.scope) ∧
      (refreshEnd t now status (.ok b)).result = .ok (refreshEnd t now status (.ok b)).cache ∧
      (refreshEnd t now status (.ok b)).persisted = some (refreshEnd t now status (.ok b)).cache) ∧
    (∀ status b, ¬(200 ≤ status ∧ status < 300) →
      refreshEnd t now status (.ok b) =
        ⟨t, .error (.httpError status b.error_description), none⟩) ∧
    (∀ status, refreshEnd t now status (.error ()) = ⟨t, .error .parseError, none⟩) ∧
    refreshOutcome t now .netError = ⟨t, .error .transportError, none⟩ := by
  refine ⟨?_, ?_, ?_, rfl⟩
  · intro status b h1 h2
    simp only [refreshEnd, if_pos (And.intro h1 h2)]
    refine ⟨?_, ?_, ?_, ?_, ?_, ?_, ?_, ?_⟩ <;>
      first
        | trivial
        | (intro h; simp [h])
  · intro status b h
    simp only [refreshEnd, if_neg h]
  · intro status
    rfl

/-- Closed witness for `refresh_merge_atomic`: a concrete record, a concrete
2xx response body with no new refresh token, and a concrete 400 failure. -/
theorem refresh_merge_atomic_witness :
    ((refreshEnd ⟨some "old", some "rt", some 0, none, some "sc"⟩ 1000 200
        (.ok ⟨some "new", none, 3600, none, none⟩)).cache.access_token = some "new" ∧
      (refreshEnd ⟨some "old", some "rt", some 0, none, some "sc"⟩ 1000 200
        (.ok ⟨some "new", none, 3600, none, none⟩)).cache.refresh_token = some "rt") ∧
    refreshEnd ⟨some "old", some "rt", some 0, none, some "sc"⟩ 1000 400
        (.ok ⟨some "x", none, 1, none, some "bad"⟩) =
      ⟨⟨some "old", some "rt", some 0, none, some "sc"⟩,
        .error (.httpError 400 (some "bad")), none⟩ := by
  have h := refresh_merge_atomic ⟨some "old", some "rt", some 0, none, some "sc"⟩ 1000
  refine ⟨⟨(h.1 200 ⟨some "new", none, 3600, none, none⟩ (by decide) (by decide)).1, ?_⟩, ?_⟩
  · exact (h.1 200 ⟨some "new", none, 3600, none, none⟩ (by decide) (by decide)).2.2.2.1
      (by decide)
  · exact h.2.1 400 ⟨some "x", none, 1, none, some "bad"⟩ (by decide)

/-- C8: `needsRefresh` is true exactly when there is no cached record, the
record has no expiry, or the current time is at or past the expiry minus the
300-second buffer; a credential expiring 4 minutes out needs refresh, one
expiring 10 minutes out does not. -/
theorem needsRefresh_buffer (t : Tokens) (now : Int) :
    (∀ e, t.expires_at = some e →
      (needsRefresh (some t) now = true ↔ now ≥ e - 300 * 1000)) ∧
    needsRefresh none now = true ∧
    (t.expires_at = none → needsRefresh (some t) now = true) ∧
    (t.expires_at = some (now + 4 * 60 * 1000) → needsRefresh (some t) now = true) ∧
    (t.expires_at = some (now + 10 * 60 * 1000) → needsRefresh (some t) now = false) := by
  refine ⟨?_, rfl, ?_, ?_, ?_⟩
  · intro e he
    simp [needsRefresh, he, REFRESH_BUFFER_MS]
  · intro he
    simp [needsRefresh, he]
  · intro he
    simp only [needsRefresh, he, REFRESH_BUFFER_MS, decide_eq_true_eq]
    omega
  · intro he
    simp only [needsRefresh, he, REFRESH_BUFFER_MS, decide_eq_false_iff_not, ge_iff_le]
    omega

/-- Closed witness for `needsRefresh_buffer`: at time 0, expiry 240000 ms
out needs refresh; expiry 600000 ms out does not. -/
theorem needsRefresh_buffer_witness :
    needsRefresh (some ⟨some "a", none, some 240000, none, none⟩) 0 = true ∧
    needsRefresh (some ⟨some "a", none, some 600000, none, none⟩) 0 = false :=
  ⟨(needsRefresh_buffer ⟨some "a", none, some 240000, none, none⟩ 0).2.2.2.1 (by norm_num),
   (needsRefresh_buffer ⟨some "a", none, some 600000, none, none⟩ 0).2.2.2.2 (by norm_num)⟩

/-- C6: `getAccessToken` is a total function into `Option String` — every
failure path yields `none` rather than an exception. In particular it
resolves to `none` when no record can be loaded, when the record has no
truthy access token, when the token needs refresh but no refresh token is
present, and when the token needs refresh and the renewal attempt rejects. -/
theorem getAccessToken_never_throws (cached : Option Tokens)
    (fileContents : Option (Option Tokens)) (now : Int) (net : NetResult) :
    (cached = none → loadTokenCache fileContents = none →
      (getAccessToken cached fileContents now net).1 = none) ∧
    (∀ t, cached = some t → jsTruthyS t.access_token = false →
      (getAccessToken cached fileContents now net).1 = none) ∧
    (∀ t, cached = some t → needsRefresh (some t) now = true →
      jsTruthyS t.refresh_token = false →
      (getAccessToken cached fileContents now net).1 = none) ∧
    (∀ t e, cached = some t → needsRefresh (some t) now = true →
      jsTruthyS t.refresh_token = true → (refreshOutcome t now net).result = .error e →
      (getAccessToken cached fileContents now net).1 = none) := by
  refine ⟨?_, ?_, ?_, ?_⟩
  · intro h1 h2
    simp [getAccessToken, h1, h2]
  · intro t ht hat
    simp [getAccessToken, ht, hat]
  · intro t ht hnr hrt
    cases hat : jsTruthyS t.access_token <;>
      simp [getAccessToken, ht, hnr, hrt, hat]
  · intro t e ht hnr hrt herr
    cases hat : jsTruthyS t.access_token <;>
      simp [getAccessToken, ht, hnr, hrt, hat, herr]

/-- Closed witness for `getAccessToken_never_throws`: a concrete expired
record whose renewal attempt is rejected with HTTP 400 resolves to `none`. -/
theorem getAccessToken_never_throws_witness :
    (getAccessToken (some ⟨some "a", some "r", some 0, none, none⟩) none 1000
      (.response 400 (.ok ⟨none, none, 0, none, some "bad"⟩))).1 = none :=
  (getAccessToken_never_throws (some ⟨some "a", some "r", some 0, none, none⟩) none 1000
      (.response 400 (.ok ⟨none, none, 0, none, some "bad"⟩))).2.2.2
    ⟨some "a", some "r", some 0, none, none⟩ (.httpError 400 (some "bad")) rfl (by decide)
    (by decide) rfl

/-! ## Progressive search (`src/email/search.js`)

`progressiveSearch(endpoint, accessToken, searchTerms, filterTerms, maxCount,
sortOrder, skip)` drives `callGraphAPIPaginated` through a cascade of
strategies. The remote call is abstracted as an oracle
`exec : Strategy → Except String (List Item)`: `exec s` is the outcome of
`callGraphAPIPaginated` on the query parameters the code builds for strategy
`s` (an `.error` models a thrown transport/remote error, `.ok` the `value`
array of the response). Endpoint, token, count, sort order and skip are
fixed throughout one call and absorbed into the oracle. -/

/-- Opaque message items: only their identity and count matter here. -/
abbrev Item := String

/-- `searchTerms` as built by `handleSearchEmails`: each field defaults to
`''`; a term is supplied iff it is nonempty (`if (searchTerms[term])`).
`from` and `to` are Lean keywords, hence `fromAddr`/`toAddr`. -/
structure SearchTerms where
  query : String
  fromAddr : String
  toAddr : String
  subject : String
deriving Repr, DecidableEq

/-- `filterTerms` as built by `handleSearchEmails`: `hasAttachments` and
`unreadOnly` may be undefined; `before`/`after` default to `null`. -/
structure FilterTerms where
  hasAttachments : Option Bool
  unreadOnly : Option Bool
  before : Option String
  after : Option String
deriving Repr, DecidableEq

/-- The four text search fields, in the code's `searchPriority` order. -/
inductive TermField
  | subject
  | fromF
  | toF
  | query
deriving Repr, DecidableEq

def getTerm (st : SearchTerms) : TermField → String
  | .subject => st.subject
  | .fromF => st.fromAddr
  | .toF => st.toAddr
  | .query => st.query

def termName : TermField → String
  | .subject => "subject"
  | .fromF => "from"
  | .toF => "to"
  | .query => "query"

/-- `const searchPriority = ['subject', 'from', 'to', 'query'];` -/
def searchPriority : List TermField := [.subject, .fromF, .toF, .query]

/-- The strategies of the cascade. -/
inductive Strategy
  | combined
  | singleTerm (f : TermField)
  | filtersOnly
  | basicListing
deriving Repr, DecidableEq

/-- The names pushed onto `searchAttempts`. -/
def strategyName : Strategy → String
  | .combined => "combined-search"
  | .singleTerm f => "single-term-" ++ termName f
  | .filtersOnly => "filters-only"
  | .basicListing => "basic-listing"

/-- `hasFilters`: `filterTerms.hasAttachments === true || filterTerms.unreadOnly
=== true || filterTerms.before || filterTerms.after`. -/
def hasFilters (ft : FilterTerms) : Bool :=
  ft.hasAttachments == some true || ft.unreadOnly == some true ||
    jsTruthyS ft.before || jsTruthyS ft.after

/-- The `_searchInfo` note attached to the basic-listing response. -/
structure SearchInfo where
  attemptsCount : Nat
  strategies : List String
  originalTerms : SearchTerms
  filterTerms : FilterTerms
deriving Repr, DecidableEq

/-- A response as returned by `progressiveSearch`: the `value` item array and
the optional `_searchInfo` note. -/
structure GraphResponse where
  value : List Item
  searchInfo : Option SearchInfo
deriving Repr, DecidableEq

/-- Step 2 of `progressiveSearch`: the `for (const term of searchPriority)`
loop. Skips unsupplied terms; on a nonempty result halts with the items; on
an empty result or a caught error falls through to the next term. -/
def trySingles (exec : Strategy → Except String (List Item)) (st : SearchTerms)
    (attempts : List String) : List TermField → List String × Option (List Item)
  | [] => (attempts, none)
  | f :: rest =>
    if (getTerm st f).isEmpty then trySingles exec st attempts rest
    else
      let attempts2 := attempts ++ [strategyName (.singleTerm f)]
      match exec (.singleTerm f) with
      | .ok items =>
        if items.length > 0 then (attempts2, some items)
        else trySingles exec st attempts2 rest
      | .error _ => trySingles exec st attempts2 rest

/-- Step 3 of `progressiveSearch`: the filters-only attempt. Only made when
`hasFilters`; its response is returned whether or not it is empty; a caught
error falls through (`none`). -/
def tryFiltersStage (exec : Strategy → Except String (List Item)) (ft : FilterTerms)
    (attempts : List String) : List String × Option (List Item) :=
  if hasFilters ft then
    let attempts2 := attempts ++ [strategyName .filtersOnly]
    match exec .filtersOnly with
    | .ok items => (attempts2, some items)
    | .error _ => (attempts2, none)
  else (attempts, none)

/-- Step 4 of `progressiveSearch`: the basic-listing fallback. Attaches the
`_searchInfo` note to a successful response; an error is not caught. -/
def basicStage (exec : Strategy → Except String (List Item)) (st : SearchTerms)
    (ft : FilterTerms) (attempts : List String) :
    List String × Except String GraphResponse :=
  let attempts2 := attempts ++ [strategyName .basicListing]
  match exec .basicListing with
  | .ok items => (attempts2, .ok ⟨items, some ⟨attempts2.length, attempts2, st, ft⟩⟩)
  | .error e => (attempts2, .error e)

/-- `progressiveSearch`: combined attempt, then the single-term loop, the
filters-only attempt, and the basic-listing fallback. Returns the
`searchAttempts` list alongside the response (or the uncaught final error). -/
def progressiveSearch (exec : Strategy → Except String (List Item))
    (st : SearchTerms) (ft : FilterTerms) :
    List String × Except String GraphResponse :=
  let attempts := [strategyName .combined]
  let step1 : Option (List Item) :=
    match exec .combined with
    | .ok items => if items.length > 0 then some items else none
    | .error _ => none
  match step1 with
  | some items => (attempts, .ok ⟨items, none⟩)
  | none =>
    match trySingles exec st attempts searchPriority with
    | (attempts2, some items) => (attempts2, .ok ⟨items, none⟩)
    | (attempts2, none) =>
      match tryFiltersStage exec ft attempts2 with
      | (attempts3, some items) => (attempts3, .ok ⟨items, none⟩)
      | (attempts3, none) => basicStage exec st ft attempts3

/-- The ordered list of strategies the cascade will consider for the given
inputs: combined, then each supplied single term in `searchPriority` order,
then filters-only when a filter was supplied, then basic-listing. -/
def plannedStrategies (st : SearchTerms) (ft : FilterTerms) : List Strategy :=
  [.combined] ++
    ((searchPriority.filter (fun f => !(getTerm st f).isEmpty)).map .singleTerm) ++
    (if hasFilters ft then [.filtersOnly] else []) ++ [.basicListing]

/-- Whether the cascade halts at a strategy (returns its response rather than
falling through): combined and single-term halt exactly on a nonempty
successful result, filters-only halts on any successful result, and
basic-listing always halts. -/
def stops (exec : Strategy → Except String (List Item)) : Strategy → Bool
  | .combined =>
    match exec .combined with
    | .ok items => decide (items.length > 0)
    | .error _ => false
  | .singleTerm f =>
    match exec (.singleTerm f) with
    | .ok items => decide (items.length > 0)
    | .error _ => false
  | .filtersOnly =>
    match exec .filtersOnly with
    | .ok _ => true
    | .error _ => false
  | .basicListing => true

/-- The prefix of a list up to and including its first element satisfying `p`
(the whole list when no element does). -/
def takeThrough (p : α → Bool) : List α → List α
  | [] => []
  | a :: as => if p a then [a] else a :: takeThrough p as

/-- The response produced by the strategy the cascade halts at (`att` is the
full attempts list, used by the basic-listing note). -/
def haltOutcome (exec : Strategy → Except String (List Item)) (st : SearchTerms)
    (ft : FilterTerms) (att : List String) : Strategy → Except String GraphResponse
  | .basicListing =>
    match exec .basicListing with
    | .ok items => .ok ⟨items, some ⟨att.length, att, st, ft⟩⟩
    | .error e => .error e
  | s =>
    match exec s with
    | .ok items => .ok ⟨items, none⟩
    | .error e => .error e

/-- Data-driven form of the cascade: run the listed strategies in order,
halting per `stops`. `progressiveSearch` is proved equal to this runner on
`plannedStrategies` (`progressiveSearch_eq_run`). -/
def runStrategies (exec : Strategy → Except String (List Item)) (st : SearchTerms)
    (ft : FilterTerms) (att : List String) :
    List Strategy → List String × Except String GraphResponse
  | [] => (att, .error "")
  | s :: rest =>
    let att2 := att ++ [strategyName s]
    match s with
    | .basicListing =>
      match exec .basicListing with
      | .ok items => (att2, .ok ⟨items, some ⟨att2.length, att2, st, ft⟩⟩)
      | .error e => (att2, .error e)
    | .filtersOnly =>
      match exec .filtersOnly with
      | .ok items => (att2, .ok ⟨items, none⟩)
      | .error _ => runStrategies exec st ft att2 rest
    | .combined =>
      match exec .combined with
      | .ok items =>
        if items.length > 0 then (att2, .ok ⟨items, none⟩)
        else runStrategies exec st ft att2 rest
      | .error _ => runStrategies exec st ft att2 rest
    | .singleTerm f =>
      match exec (.singleTerm f) with
      | .ok items =>
        if items.length > 0 then (att2, .ok ⟨items, none⟩)
        else runStrategies exec st ft att2 rest
      | .error _ => runStrategies exec st ft att2 rest

/-- The strategy note displayed by `formatSearchResults`:
`response._searchInfo.strategies[response._searchInfo.strategies.length - 1]`
when `_searchInfo` is present, nothing otherwise. -/
def strategyNote (r : GraphResponse) : Option String :=
  match r.searchInfo with
  | some si => some (si.strategies.getLastD "")
  | none => none

theorem trySingles_run (exec : Strategy → Except String (List Item))
    (st : SearchTerms) (ft : FilterTerms) (fields : List TermField) :
    ∀ (att : List String) (rest : List Strategy),
      runStrategies exec st ft att
        (((fields.filter (fun f => !(getTerm st f).isEmpty)).map .singleTerm) ++ rest) =
      (match trySingles exec st att fields with
       | (a2, some items) => (a2, .ok ⟨items, none⟩)
       | (a2, none) => runStrategies exec st ft a2 rest) := by
  induction fields with
  | nil => intro att rest; simp [trySingles]
  | cons f fs ih =>
    intro att rest
    by_cases hf : (getTerm st f).isEmpty
    · simp only [List.filter_cons, hf, Bool.not_true, trySingles, if_pos hf]
      exact ih att rest
    · simp only [List.filter_cons, hf, Bool.not_false, List.map_cons, List.cons_append,
        trySingles, if_neg hf]
      cases hx : exec (.singleTerm f) with
      | ok items =>
        by_cases hlen : items.length > 0
        · simp [runStrategies, hx, hlen]
        · simp only [runStrategies, hx, if_neg hlen]
          exact ih _ rest
      | error e =>
        simp only [runStrategies, hx]
        exact ih _ rest

theorem tryFilters_run (exec : Strategy → Except String (List Item))
    (st : SearchTerms) (ft : FilterTerms) (att : List String) :
    runStrategies exec st ft att
      ((if hasFilters ft then [Strategy.filtersOnly] else []) ++ [Strategy.basicListing]) =
      (match tryFiltersStage exec ft att with
       | (a2, some items) => (a2, .ok ⟨items, none⟩)
       | (a2, none) => basicStage exec st ft a2) := by
  by_cases h : hasFilters ft
  · cases hx : exec .filtersOnly with
    | ok items => simp [tryFiltersStage, h, hx, runStrategies]
    | error e =>
      cases hb : exec .basicListing with
      | ok items2 => simp [tryFiltersStage, h, hx, hb, runStrategies, basicStage]
      | error e2 => simp [tryFiltersStage, h, hx, hb, runStrategies, basicStage]
  · cases hb : exec .basicListing with
    | ok items2 => simp [tryFiltersStage, h, hb, runStrategies, basicStage]
    | error e2 => simp [tryFiltersStage, h, hb, runStrategies, basicStage]

/-- The nested try/catch cascade equals the data-driven runner over the
planned strategy list. -/
theorem progressiveSearch_eq_run (exec : Strategy → Except String (List Item))
    (st : SearchTerms) (ft : FilterTerms) :
    progressiveSearch exec st ft =
      runStrategies exec st ft [] (plannedStrategies st ft) := by
  have hplan : plannedStrategies st ft = Strategy.combined ::
      (((searchPriority.filter (fun f => !(getTerm st f).isEmpty)).map Strategy.singleTerm) ++
        ((if hasFilters ft then [Strategy.filtersOnly] else []) ++ [Strategy.basicListing])) := by
    simp [plannedStrategies]
  rw [hplan]
  simp only [progressiveSearch, runStrategies, List.nil_append]
  cases hx : exec .combined with
  | ok items =>
    by_cases hlen : items.length > 0
    · simp [hlen]
    · simp only [if_neg hlen]
      rw [trySingles_run]
      cases hts : trySingles exec st [strategyName .combined] searchPriority with
      | mk a2 res =>
        cases res with
        | some items2 => rfl
        | none =>
          dsimp only
          rw [tryFilters_run]
  | error e =>
    rw [trySingles_run]
    cases hts : trySingles exec st [strategyName .combined] searchPriority with
    | mk a2 res =>
      cases res with
      | some items2 => rfl
      | none =>
        dsimp only
        rw [tryFilters_run]

theorem takeThrough_ne_nil {p : α → Bool} {l : List α} (h : l ≠ []) :
    takeThrough p l ≠ [] := by
  cases l with
  | nil => exact absurd rfl h
  | cons a as =>
    simp only [takeThrough]
    split <;> simp

theorem takeThrough_subset {p : α → Bool} :
    ∀ {l : List α} {a : α}, a ∈ takeThrough p l → a ∈ l := by
  intro l
  induction l with
  | nil => intro a h; simp [takeThrough] at h
  | cons x xs ih =>
    intro a h
    simp only [takeThrough] at h
    by_cases hx : p x
    · rw [if_pos hx] at h
      simp at h
      simp [h]
    · rw [if_neg hx] at h
      rcases List.mem_cons.mp h with h1 | h2
      · simp [h1]
      · exact List.mem_cons_of_mem x (ih h2)

theorem getLast_concat (l : List α) (a : α) : (l ++ [a]).getLast? = some a := by
  induction l with
  | nil => rfl
  | cons x xs ih =>
    rw [List.cons_append]
    cases h : xs ++ [a] with
    | nil => exact absurd h (by simp)
    | cons y ys => rw [List.getLast?_cons_cons, ← h, ih]

theorem getLast_cons_of_ne_nil (a : α) {l : List α} (h : l ≠ []) :
    (a :: l).getLast? = l.getLast? := by
  cases l with
  | nil => exact absurd rfl h
  | cons y ys => rw [List.getLast?_cons_cons]

theorem getLast_map (g : α → β) : ∀ (l : List α), (l.map g).getLast? = l.getLast?.map g := by
  intro l
  induction l with
  | nil => rfl
  | cons x xs ih =>
    cases xs with
    | nil => rfl
    | cons y ys =>
      rw [List.map_cons, List.map_cons, List.getLast?_cons_cons, ← List.map_cons, ih,
        List.getLast?_cons_cons]

theorem strategyName_inj : ∀ s1 s2 : Strategy, strategyName s1 = strategyName s2 → s1 = s2 := by
  intro s1 s2 h
  cases s1 <;> cases s2 <;> first
    | rfl
    | (rename_i f; cases f <;> revert h <;> decide)
    | (rename_i f g; cases f <;> cases g <;> revert h <;> decide)
    | (revert h; decide)

/-- The attempts list of the runner: the attempted strategies are exactly the
planned ones up to and including the first halting one, in order. -/
theorem runStrategies_attempts (exec : Strategy → Except String (List Item))
    (st : SearchTerms) (ft : FilterTerms) :
    ∀ (l : List Strategy) (att : List String),
      (runStrategies exec st ft att l).1 =
        att ++ (takeThrough (stops exec) l).map strategyName := by
  intro l
  induction l with
  | nil => intro att; simp [runStrategies, takeThrough]
  | cons s rest ih =>
    intro att
    cases s with
    | combined =>
      cases hx : exec .combined with
      | ok items =>
        by_cases hlen : items.length > 0
        · simp [runStrategies, takeThrough, stops, hx, hlen]
        · simp [runStrategies, takeThrough, stops, hx, hlen, ih]
      | error e => simp [runStrategies, takeThrough, stops, hx, ih]
    | singleTerm f =>
      cases hx : exec (.singleTerm f) with
      | ok items =>
        by_cases hlen : items.length > 0
        · simp [runStrategies, takeThrough, stops, hx, hlen]
        · simp [runStrategies, takeThrough, stops, hx, hlen, ih]
      | error e => simp [runStrategies, takeThrough, stops, hx, ih]
    | filtersOnly =>
      cases hx : exec .filtersOnly with
      | ok items => simp [runStrategies, takeThrough, stops, hx]
      | error e => simp [runStrategies, takeThrough, stops, hx, ih]
    | basicListing =>
      cases hb : exec .basicListing with
      | ok items => simp [runStrategies, takeThrough, stops, hb]
      | error e => simp [runStrategies, takeThrough, stops, hb]

/-- An error escapes the runner only from the basic-listing attempt, and then
the attempts list ends with `"basic-listing"`. -/
theorem runStrategies_error (exec : Strategy → Except String (List Item))
    (st : SearchTerms) (ft : FilterTerms) :
    ∀ (l : List Strategy) (att : List String) (e : String),
      Strategy.basicListing ∈ l →
      (runStrategies exec st ft att l).2 = .error e →
      exec .basicListing = .error e ∧
        (runStrategies exec st ft att l).1.getLast? = some (strategyName .basicListing) := by
  intro l
  induction l with
  | nil => intro att e hmem; exact absurd hmem (by simp)
  | cons s rest ih =>
    intro att e hmem herr
    cases s with
    | combined =>
      have hmem2 : Strategy.basicListing ∈ rest := by
        rcases List.mem_cons.mp hmem with h | h
        · exact absurd h (by simp)
        · exact h
      revert herr
      cases hx : exec .combined with
      | ok items =>
        by_cases hlen : items.length > 0
        · simp [runStrategies, hx, hlen]
        · simp only [runStrategies, hx, if_neg hlen]
          exact ih _ e hmem2
      | error e2 =>
        simp only [runStrategies, hx]
        exact ih _ e hmem2
    | singleTerm f =>
      have hmem2 : Strategy.basicListing ∈ rest := by
        rcases List.mem_cons.mp hmem with h | h
        · exact absurd h (by simp)
        · exact h
      revert herr
      cases hx : exec (.singleTerm f) with
      | ok items =>
        by_cases hlen : items.length > 0
        · simp [runStrategies, hx, hlen]
        · simp only [runStrategies, hx, if_neg hlen]
          exact ih _ e hmem2
      | error e2 =>
        simp only [runStrategies, hx]
        exact ih _ e hmem2
    | filtersOnly =>
      have hmem2 : Strategy.basicListing ∈ rest := by
        rcases List.mem_cons.mp hmem with h | h
        · exact absurd h (by simp)
        · exact h
      revert herr
      cases hx : exec .filtersOnly with
      | ok items => simp [runStrategies, hx]
      | error e2 =>
        simp only [runStrategies, hx]
        exact ih _ e hmem2
    | basicListing =>
      revert herr
      cases hb : exec .basicListing with
      | ok items => simp [runStrategies, hb]
      | error e2 =>
        simp only [runStrategies, hb]
        intro herr
        cases herr
        exact ⟨rfl, getLast_concat _ _⟩

/-- The runner's response is the halting strategy's response, where the
halting strategy is the last attempted one. -/
theorem runStrategies_outcome (exec : Strategy → Except String (List Item))
    (st : SearchTerms) (ft : FilterTerms) :
    ∀ (l : List Strategy) (att : List String) (s : Strategy),
      Strategy.basicListing ∈ l →
      (takeThrough (stops exec) l).getLast? = some s →
      (runStrategies exec st ft att l).2 =
        haltOutcome exec st ft (runStrategies exec st ft att l).1 s := by
  intro l
  induction l with
  | nil => intro att s hmem; exact absurd hmem (by simp)
  | cons a rest ih =>
    intro att s hmem hlast
    by_cases hstop : stops exec a
    · rw [takeThrough, if_pos hstop] at hlast
      simp only [List.getLast?_singleton, Option.some.injEq] at hlast
      subst hlast
      cases a with
      | combined =>
        cases hx : exec .combined with
        | ok items =>
          have hlen : items.length > 0 := by
            have h2 := hstop
            simp only [stops, hx, decide_eq_true_eq] at h2
            exact h2
          simp [runStrategies, haltOutcome, hx, hlen]
        | error e => exact absurd hstop (by simp [stops, hx])
      | singleTerm f =>
        cases hx : exec (.singleTerm f) with
        | ok items =>
          have hlen : items.length > 0 := by
            have h2 := hstop
            simp only [stops, hx, decide_eq_true_eq] at h2
            exact h2
          simp [runStrategies, haltOutcome, hx, hlen]
        | error e => exact absurd hstop (by simp [stops, hx])
      | filtersOnly =>
        cases hx : exec .filtersOnly with
        | ok items => simp [runStrategies, haltOutcome, hx]
        | error e => exact absurd hstop (by simp [stops, hx])
      | basicListing =>
        cases hb : exec .basicListing with
        | ok items => simp [runStrategies, haltOutcome, hb]
        | error e => simp [runStrategies, haltOutcome, hb]
    · have hab : a ≠ Strategy.basicListing := by
        intro hcontra
        rw [hcontra] at hstop
        exact hstop rfl
      have hmem2 : Strategy.basicListing ∈ rest := by
        rcases List.mem_cons.mp hmem with h | h
        · exact absurd h.symm hab
        · exact h
      rw [takeThrough, if_neg hstop] at hlast
      rw [getLast_cons_of_ne_nil _ (takeThrough_ne_nil (by rintro rfl; simp at hmem2))] at hlast
      cases a with
      | combined =>
        cases hx : exec .combined with
        | ok items =>
          have hlen : ¬items.length > 0 := by
            intro hc
            exact hstop (by simp [stops, hx, hc])
          simp only [runStrategies, hx]
          rw [if_neg hlen]
          exact ih _ s hmem2 hlast
        | error e =>
          simp only [runStrategies, hx]
          exact ih _ s hmem2 hlast
      | singleTerm f =>
        cases hx : exec (.singleTerm f) with
        | ok items =>
          have hlen : ¬items.length > 0 := by
            intro hc
            exact hstop (by simp [stops, hx, hc])
          simp only [runStrategies, hx]
          rw [if_neg hlen]
          exact ih _ s hmem2 hlast
        | error e =>
          simp only [runStrategies, hx]
          exact ih _ s hmem2 hlast
      | filtersOnly =>
        cases hx : exec .filtersOnly with
        | ok items => exact absurd (by simp [stops, hx]) hstop
        | error e =>
          simp only [runStrategies, hx]
          exact ih _ s hmem2 hlast
      | basicListing => exact absurd rfl hab

theorem mem_planned_singleTerm {st : SearchTerms} {ft : FilterTerms} {f : TermField}
    (h : Strategy.singleTerm f ∈ plannedStrategies st ft) :
    (getTerm st f).isEmpty = false := by
  by_cases hfl : hasFilters ft <;>
    simp [plannedStrategies, hfl, List.mem_filter] at h <;>
    exact h.2

theorem mem_planned_filtersOnly {st : SearchTerms} {ft : FilterTerms}
    (h : Strategy.filtersOnly ∈ plannedStrategies st ft) :
    hasFilters ft = true := by
  by_cases hfl : hasFilters ft
  · exact hfl
  · simp [plannedStrategies, hfl] at h

theorem planned_decomp {st : SearchTerms} {ft : FilterTerms} (h : hasFilters ft = true) :
    plannedStrategies st ft =
      (Strategy.combined ::
          (searchPriority.filter (fun f => !(getTerm st f).isEmpty)).map Strategy.singleTerm) ++
        [Strategy.filtersOnly, Strategy.basicListing] := by
  simp [plannedStrategies, h]

theorem filtersOnly_not_mem_pre {st : SearchTerms} :
    Strategy.filtersOnly ∉
      (Strategy.combined ::
        (searchPriority.filter (fun f => !(getTerm st f).isEmpty)).map Strategy.singleTerm) := by
  simp

/-- If `a` is reached by `takeThrough` but does not satisfy `p`, the element
after it is reached as well. -/
theorem takeThrough_next_mem {p : α → Bool} {a b : α} :
    ∀ (pre : List α), a ∉ pre → p a = false →
      a ∈ takeThrough p (pre ++ [a, b]) → b ∈ takeThrough p (pre ++ [a, b]) := by
  intro pre
  induction pre with
  | nil =>
    intro _ hpa _
    simp only [List.nil_append, takeThrough, hpa, if_false, Bool.false_eq_true]
    by_cases hb : p b <;> simp [takeThrough, hb]
  | cons x xs ih =>
    intro hnot hpa hmem
    simp only [List.cons_append, takeThrough] at hmem ⊢
    by_cases hx : p x
    · rw [if_pos hx] at hmem
      simp only [List.mem_singleton] at hmem
      exact absurd (by rw [hmem]; exact List.mem_cons_self x xs) hnot
    · rw [if_neg hx] at hmem ⊢
      rcases List.mem_cons.mp hmem with h1 | h2
      · exact absurd (by rw [h1]; exact List.mem_cons_self x xs) hnot
      · exact List.mem_cons_of_mem x
          (ih (fun hc => hnot (List.mem_cons_of_mem x hc)) hpa h2)

/-- Claim C2 (amended): strategies are considered in the fixed planned order
(combined; supplied single terms in priority order; filters-only when a
filter is supplied; basic-listing), a strategy whose required inputs are
absent is never attempted, the attempted strategies are exactly the planned
prefix up to the first halting one, and the returned response is the halting
strategy's — where combined and single-term halt exactly on a nonempty
successful result, but filters-only halts on any successful result, even an
empty one, and basic-listing always halts. -/
theorem progressiveSearch_fixed_order (exec : Strategy → Except String (List Item))
    (st : SearchTerms) (ft : FilterTerms) :
    (progressiveSearch exec st ft).1 =
      (takeThrough (stops exec) (plannedStrategies st ft)).map strategyName ∧
    (∀ f, (getTerm st f).isEmpty = true →
      strategyName (.singleTerm f) ∉ (progressiveSearch exec st ft).1) ∧
    (hasFilters ft = false →
      strategyName .filtersOnly ∉ (progressiveSearch exec st ft).1) ∧
    (∀ s, (takeThrough (stops exec) (plannedStrategies st ft)).getLast? = some s →
      (progressiveSearch exec st ft).2 =
        haltOutcome exec st ft (progressiveSearch exec st ft).1 s) := by
  have hmem : Strategy.basicListing ∈ plannedStrategies st ft := by simp [plannedStrategies]
  have hatt : (progressiveSearch exec st ft).1 =
      (takeThrough (stops exec) (plannedStrategies st ft)).map strategyName := by
    rw [progressiveSearch_eq_run, runStrategies_attempts]
    simp
  refine ⟨hatt, ?_, ?_, ?_⟩
  · intro f hf hin
    rw [hatt] at hin
    obtain ⟨s2, hs2mem, hs2name⟩ := List.mem_map.mp hin
    have hs2 : s2 = .singleTerm f := strategyName_inj _ _ hs2name
    subst hs2
    have := mem_planned_singleTerm (takeThrough_subset hs2mem)
    rw [hf] at this
    cases this
  · intro hfl hin
    rw [hatt] at hin
    obtain ⟨s2, hs2mem, hs2name⟩ := List.mem_map.mp hin
    have hs2 : s2 = .filtersOnly := strategyName_inj _ _ hs2name
    subst hs2
    have := mem_planned_filtersOnly (takeThrough_subset hs2mem)
    rw [hfl] at this
    cases this
  · intro s hs
    rw [progressiveSearch_eq_run]
    exact runStrategies_outcome exec st ft _ [] s hmem hs

/-- Closed witness for `progressiveSearch_fixed_order`: with no subject term
supplied, the single-term-subject strategy is never attempted. -/
theorem progressiveSearch_fixed_order_witness :
    strategyName (.singleTerm .subject) ∉
      (progressiveSearch (fun _ => Except.ok []) ⟨"", "", "", ""⟩
        ⟨none, none, none, none⟩).1 :=
  (progressiveSearch_fixed_order (fun _ => Except.ok []) ⟨"", "", "", ""⟩
      ⟨none, none, none, none⟩).2.1 .subject (by decide)

/-- Concrete inputs refuting claim C2 as stated: no text terms, an
attachments filter, a filters-only call that succeeds with zero items, and a
basic listing that would return one item. -/
def exC2 : Strategy → Except String (List Item)
  | .basicListing => .ok ["m1"]
  | _ => .ok []

def stC2 : SearchTerms := ⟨"", "", "", ""⟩

def ftC2 : FilterTerms := ⟨some true, none, none, none⟩

/-- Counterexample to claim C2 as stated: the filters-only attempt returns
zero items, yet the cascade stops there and returns the empty result —
basic-listing, which would have produced an item, is never attempted. -/
theorem progressiveSearch_stops_on_empty_filters :
    progressiveSearch exC2 stC2 ftC2 =
      (["combined-search", "filters-only"], .ok ⟨[], none⟩) ∧
    exC2 .basicListing = .ok ["m1"] ∧
    strategyName .basicListing ∉ (progressiveSearch exC2 stC2 ftC2).1 := by
  refine ⟨rfl, rfl, ?_⟩
  intro h
  have hatt : (progressiveSearch exC2 stC2 ftC2).1 = ["combined-search", "filters-only"] := rfl
  rw [hatt] at h
  revert h
  decide

theorem getLastD_eq_of_getLast (l : List α) (a d : α) (h : l.getLast? = some a) :
    l.getLastD d = a := by
  rw [List.getLastD_eq_getLast?, h]
  rfl

/-- Claim C3 (amended): the planner attaches strategy-attempt info
(`_searchInfo`) only when the cascade reaches the basic-listing fallback; the
info then records every attempted strategy name in order, and the strategy
`formatSearchResults` reports is the last recorded one, which is always
`"basic-listing"`. When an earlier strategy produced the returned items, no
strategy info is recorded at all. -/
theorem searchInfo_only_on_fallback (exec : Strategy → Except String (List Item))
    (st : SearchTerms) (ft : FilterTerms) (r : GraphResponse)
    (hr : (progressiveSearch exec st ft).2 = .ok r) :
    (∀ si, r.searchInfo = some si →
      si.strategies = (progressiveSearch exec st ft).1 ∧
      si.attemptsCount = (progressiveSearch exec st ft).1.length ∧
      si.strategies.getLast? = some (strategyName .basicListing) ∧
      strategyNote r = some (strategyName .basicListing)) ∧
    (r.searchInfo = none ↔
      (progressiveSearch exec st ft).1.getLast? ≠ some (strategyName .basicListing)) := by
  have hmem : Strategy.basicListing ∈ plannedStrategies st ft := by simp [plannedStrategies]
  have hatt : (progressiveSearch exec st ft).1 =
      (takeThrough (stops exec) (plannedStrategies st ft)).map strategyName := by
    rw [progressiveSearch_eq_run, runStrategies_attempts]
    simp
  have hne : takeThrough (stops exec) (plannedStrategies st ft) ≠ [] :=
    takeThrough_ne_nil (by simp [plannedStrategies])
  obtain ⟨s, hs⟩ : ∃ s,
      (takeThrough (stops exec) (plannedStrategies st ft)).getLast? = some s := by
    cases hcase : (takeThrough (stops exec) (plannedStrategies st ft)).getLast? with
    | none =>
      rw [List.getLast?_eq_none_iff] at hcase
      exact absurd hcase hne
    | some s => exact ⟨s, rfl⟩
  have hout : (progressiveSearch exec st ft).2 =
      haltOutcome exec st ft (progressiveSearch exec st ft).1 s := by
    rw [progressiveSearch_eq_run]
    exact runStrategies_outcome exec st ft _ [] s hmem hs
  have hlastatt : (progressiveSearch exec st ft).1.getLast? = some (strategyName s) := by
    rw [hatt, getLast_map, hs]
    rfl
  rw [hout] at hr
  cases s with
  | basicListing =>
    revert hr
    simp only [haltOutcome]
    cases hb : exec .basicListing with
    | ok items =>
      intro hr
      simp only [Except.ok.injEq] at hr
      subst hr
      constructor
      · intro si hsi
        simp only [Option.some.injEq] at hsi
        subst hsi
        refine ⟨rfl, rfl, hlastatt, ?_⟩
        simp only [strategyNote]
        rw [getLastD_eq_of_getLast _ _ _ hlastatt]
      · constructor
        · intro hnone
          exact Option.noConfusion hnone
        · intro hni
          exact absurd hlastatt hni
    | error e => intro hr; exact Except.noConfusion hr
  | combined =>
    revert hr
    simp only [haltOutcome]
    cases hx : exec .combined with
    | ok items =>
      intro hr
      simp only [Except.ok.injEq] at hr
      subst hr
      constructor
      · intro si hsi
        exact Option.noConfusion hsi
      · refine ⟨fun _ heq => ?_, fun _ => rfl⟩
        rw [hlastatt] at heq
        exact Strategy.noConfusion (strategyName_inj _ _ (Option.some.inj heq))
    | error e => intro hr; exact Except.noConfusion hr
  | singleTerm f =>
    revert hr
    simp only [haltOutcome]
    cases hx : exec (.singleTerm f) with
    | ok items =>
      intro hr
      simp only [Except.ok.injEq] at hr
      subst hr
      constructor
      · intro si hsi
        exact Option.noConfusion hsi
      · refine ⟨fun _ heq => ?_, fun _ => rfl⟩
        rw [hlastatt] at heq
        exact Strategy.noConfusion (strategyName_inj _ _ (Option.some.inj heq))
    | error e => intro hr; exact Except.noConfusion hr
  | filtersOnly =>
    revert hr
    simp only [haltOutcome]
    cases hx : exec .filtersOnly with
    | ok items =>
      intro hr
      simp only [Except.ok.injEq] at hr
      subst hr
      constructor
      · intro si hsi
        exact Option.noConfusion hsi
      · refine ⟨fun _ heq => ?_, fun _ => rfl⟩
        rw [hlastatt] at heq
        exact Strategy.noConfusion (strategyName_inj _ _ (Option.some.inj heq))
    | error e => intro hr; exact Except.noConfusion hr

/-- Closed witness for `searchInfo_only_on_fallback`: a basic-listing
fallback response carries `_searchInfo`, and the reported strategy is
basic-listing. -/
theorem searchInfo_only_on_fallback_witness :
    strategyNote ⟨["w1"], some ⟨2, ["combined-search", "basic-listing"],
        ⟨"", "", "", ""⟩, ⟨none, none, none, none⟩⟩⟩ =
      some (strategyName .basicListing) :=
  ((searchInfo_only_on_fallback
    (fun s => match s with | Strategy.basicListing => Except.ok ["w1"] | _ => Except.ok [])
    ⟨"", "", "", ""⟩ ⟨none, none, none, none⟩
    ⟨["w1"], some ⟨2, ["combined-search", "basic-listing"],
      ⟨"", "", "", ""⟩, ⟨none, none, none, none⟩⟩⟩ rfl).1
    ⟨2, ["combined-search", "basic-listing"],
      ⟨"", "", "", ""⟩, ⟨none, none, none, none⟩⟩ rfl).2.2.2

/-- Concrete inputs refuting claim C3 as stated: the spec scenario with a
subject term, a combined attempt yielding zero results, and a successful
single-term-subject attempt. -/
def exC3 : Strategy → Except String (List Item)
  | .singleTerm .subject => .ok ["m1"]
  | _ => .ok []

def stC3 : SearchTerms := ⟨"", "", "", "invoice"⟩

def ftC3 : FilterTerms := ⟨none, none, none, none⟩

/-- Counterexample to claim C3 as stated: in the spec scenario
(`subject="invoice"`, empty combined result, single-term-subject yields the
items), the returned response carries no strategy record at all
(`_searchInfo` is absent), so nothing reports `"single-term-subject"`. -/
theorem progressiveSearch_no_info_on_early_success :
    progressiveSearch exC3 stC3 ftC3 =
      (["combined-search", "single-term-subject"], .ok ⟨["m1"], none⟩) ∧
    strategyNote ⟨["m1"], none⟩ = none ∧
    strategyNote ⟨["m1"], none⟩ ≠ some "single-term-subject" := by
  refine ⟨rfl, rfl, ?_⟩
  intro h
  exact Option.noConfusion h

theorem trySingles_congr (exec exec2 : Strategy → Except String (List Item))
    (st : SearchTerms)
    (h : ∀ f, exec2 (.singleTerm f) = exec (.singleTerm f) ∨
      ((∃ e, exec (.singleTerm f) = .error e) ∧ exec2 (.singleTerm f) = .ok [])) :
    ∀ (fields : List TermField) (att : List String),
      trySingles exec st att fields = trySingles exec2 st att fields := by
  intro fields
  induction fields with
  | nil => intro att; rfl
  | cons f fs ih =>
    intro att
    by_cases hf : (getTerm st f).isEmpty
    · simp only [trySingles, if_pos hf]
      exact ih att
    · simp only [trySingles, if_neg hf]
      rcases h f with h1 | ⟨⟨e, he⟩, h2⟩
      · rw [h1]
        cases exec (.singleTerm f) with
        | ok items =>
          by_cases hlen : items.length > 0
          · simp [hlen]
          · simp only [if_neg hlen]
            exact ih _
        | error e2 => exact ih _
      · rw [he, h2]
        simp only [List.length_nil, gt_iff_lt, Nat.lt_irrefl, if_false]
        exact ih _

theorem progressiveSearch_congr (exec exec2 : Strategy → Except String (List Item))
    (st : SearchTerms) (ft : FilterTerms)
    (h : ∀ s, exec2 s = exec s ∨
      ((s = .combined ∨ ∃ f, s = .singleTerm f) ∧
        (∃ e, exec s = .error e) ∧ exec2 s = .ok [])) :
    progressiveSearch exec st ft = progressiveSearch exec2 st ft := by
  have hts := trySingles_congr exec exec2 st (fun f => by
    rcases h (.singleTerm f) with h1 | ⟨_, h2, h3⟩
    · exact Or.inl h1
    · exact Or.inr ⟨h2, h3⟩) searchPriority
  have hfo : exec2 .filtersOnly = exec .filtersOnly := by
    rcases h .filtersOnly with h1 | ⟨hc, _, _⟩
    · exact h1
    · rcases hc with hc | ⟨f, hc⟩ <;> exact Strategy.noConfusion hc
  have hbl : exec2 .basicListing = exec .basicListing := by
    rcases h .basicListing with h1 | ⟨hc, _, _⟩
    · exact h1
    · rcases hc with hc | ⟨f, hc⟩ <;> exact Strategy.noConfusion hc
  have hfstage : tryFiltersStage exec ft = tryFiltersStage exec2 ft := by
    funext att
    simp only [tryFiltersStage, hfo]
  have hbstage : basicStage exec st ft = basicStage exec2 st ft := by
    funext att
    simp only [basicStage, hbl]
  have hcomb : (match exec2 .combined with
      | Except.ok items => if items.length > 0 then some items else none
      | Except.error _ => none) =
    (match exec .combined with
      | Except.ok items => if items.length > 0 then some items else none
      | Except.error _ => none) := by
    rcases h .combined with h1 | ⟨_, ⟨e, he⟩, h2⟩
    · rw [h1]
    · rw [he, h2]
      simp
  simp only [progressiveSearch, hcomb, ← hts, ← hfstage, ← hbstage]

/-- Claim C5: per-strategy errors are absorbed — replacing an erroring
combined or single-term attempt by an empty successful one changes nothing
about the cascade's behaviour; an error escaping `progressiveSearch` can only
be the basic-listing attempt's error (and then basic-listing was the last
attempt); and an error in an attempted filters-only call lets the cascade
continue to basic-listing. -/
theorem progressiveSearch_error_policy (exec exec2 : Strategy → Except String (List Item))
    (st : SearchTerms) (ft : FilterTerms) :
    ((∀ s, exec2 s = exec s ∨
        ((s = .combined ∨ ∃ f, s = .singleTerm f) ∧
          (∃ e, exec s = .error e) ∧ exec2 s = .ok [])) →
      progressiveSearch exec st ft = progressiveSearch exec2 st ft) ∧
    (∀ e, (progressiveSearch exec st ft).2 = .error e →
      exec .basicListing = .error e ∧
        (progressiveSearch exec st ft).1.getLast? = some (strategyName .basicListing)) ∧
    (∀ e, exec .filtersOnly = .error e →
      strategyName .filtersOnly ∈ (progressiveSearch exec st ft).1 →
      strategyName .basicListing ∈ (progressiveSearch exec st ft).1) := by
  have hmem : Strategy.basicListing ∈ plannedStrategies st ft := by simp [plannedStrategies]
  have hatt : (progressiveSearch exec st ft).1 =
      (takeThrough (stops exec) (plannedStrategies st ft)).map strategyName := by
    rw [progressiveSearch_eq_run, runStrategies_attempts]
    simp
  refine ⟨progressiveSearch_congr exec exec2 st ft, ?_, ?_⟩
  · intro e herr
    rw [progressiveSearch_eq_run] at herr ⊢
    exact runStrategies_error exec st ft _ [] e hmem herr
  · intro e he hin
    rw [hatt] at hin ⊢
    obtain ⟨s2, hs2mem, hs2name⟩ := List.mem_map.mp hin
    have hs2 : s2 = .filtersOnly := strategyName_inj _ _ hs2name
    subst hs2
    have hfl : hasFilters ft = true := mem_planned_filtersOnly (takeThrough_subset hs2mem)
    have hdec := @planned_decomp st ft hfl
    rw [hdec] at hs2mem ⊢
    have hpfo : stops exec .filtersOnly = false := by simp [stops, he]
    exact List.mem_map.mpr
      ⟨_, takeThrough_next_mem _ filtersOnly_not_mem_pre hpfo hs2mem, rfl⟩

/-- Closed witness for `progressiveSearch_error_policy`: when every call
errors, the escaping error is the basic-listing one and the attempts list
ends with basic-listing. -/
theorem progressiveSearch_error_policy_witness :
    (fun _ => (Except.error "boom" : Except String (List Item))) Strategy.basicListing =
        .error "boom" ∧
      (progressiveSearch (fun _ => Except.error "boom") ⟨"", "", "", ""⟩
          ⟨none, none, none, none⟩).1.getLast? = some (strategyName .basicListing) :=
  (progressiveSearch_error_policy (fun _ => Except.error "boom")
      (fun _ => Except.error "boom") ⟨"", "", "", ""⟩ ⟨none, none, none, none⟩).2.1
    "boom" rfl

/-! ## Paginated fetch (`callGraphAPIPaginated`) -/

/-- Modelled from the spec: the implementation of `callGraphAPIPaginated`
(in `src/utils/graph-api.js`) is not among the provided sources — only its
call sites are. Following spec section 4.4: repeatedly request pages sized
`min(serverPageCap, remainingBudget)` with the server page cap fixed at 50,
accumulating returned items in arrival order, until the remaining budget
reaches zero or a page returns fewer items than requested (exhaustion, which
also covers the server signalling no further data). `server page size` is
the item list the server returns for the page at the given index when asked
for `size` items. Returns the accumulated items and the sizes of the page
requests issued. -/
def callGraphAPIPaginated (server : Nat → Nat → List Item) (page : Nat)
    (remaining : Nat) : List Item × List Nat :=
  if _h : remaining = 0 then ([], [])
  else
    let size := min 50 remaining
    let items := server page size
    if items.length < size then (items, [size])
    else
      let next := callGraphAPIPaginated server (page + 1) (remaining - size)
      (items ++ next.1, size :: next.2)
termination_by remaining
decreasing_by
  omega

/-- Each page request is sized `min 50 b` where `b` is the remaining budget
when it is issued, requests are only issued while the budget is positive,
and the budget shrinks by the page size. -/
inductive PageSizesOk : Nat → List Nat → Prop
  | nil : ∀ n, PageSizesOk n []
  | cons : ∀ n rs, 0 < n → PageSizesOk (n - min 50 n) rs →
      PageSizesOk n (min 50 n :: rs)

/-- The `$top` page-size parameter built by every strategy of
`progressiveSearch` (`Math.min(50, maxCount)` in `src/email/search.js`). -/
def searchTopParam (maxCount : Nat) : Nat := min 50 maxCount

/-- The `$top` parameter of `handleListEmails`
(`Math.min(50, requestedCount)`). -/
def listEmailsTopParam (requestedCount : Nat) : Nat := min 50 requestedCount

/-! ## Date parsing (`parseDate` and `addFilters` in `src/email/search.js`) -/

/-- A JS `Date` in local time, decomposed as whole local days since an epoch
plus milliseconds within the day. `setHours(0,0,0,0)` zeroes the time of
day; `setDate(getDate() - n)` moves `n` whole days back. -/
structure LocalTime where
  day : Int
  ms : Nat
deriving Repr, DecidableEq

/-- `setHours(0, 0, 0, 0)`: truncate to local midnight. -/
def atMidnight (t : LocalTime) : LocalTime := ⟨t.day, 0⟩

/-- `setDate(getDate() - n)`: move `n` whole days back. -/
def subDays (t : LocalTime) (n : Nat) : LocalTime := ⟨t.day - n, t.ms⟩

inductive DateUnit
  | day
  | week
  | month
deriving Repr, DecidableEq

/-- ASCII approximation of the regex class `\\s`. -/
def isWs (c : Char) : Bool := c = ' ' || c = '\t' || c = '\n' || c = '\r'

def dropWs (cs : List Char) : List Char := cs.dropWhile isWs

/-- `toLowerCase()`: lower-case each character. -/
def lowerStr (s : String) : String := String.mk (s.toList.map Char.toLower)

/-- `trim()`: strip leading and trailing whitespace (ASCII approximation). -/
def trimStr (s : String) : String :=
  String.mk (((s.toList.dropWhile isWs).reverse.dropWhile isWs).reverse)

/-- The alternatives of `(day|days|week|weeks|month|months)`. At most one
alternative can lead to an overall match of the full pattern, so trying them
in a fixed order is equivalent to the regex engine's backtracking; listed
longest first so the plural is preferred when both share a prefix. -/
def unitStrs : List (List Char × DateUnit) :=
  [("days".toList, .day), ("day".toList, .day),
   ("weeks".toList, .week), ("week".toList, .week),
   ("months".toList, .month), ("month".toList, .month)]

/-- The trailing `\\s*ago$` of the pattern. -/
def restIsAgo (cs : List Char) : Bool := dropWs cs == ['a', 'g', 'o']

def digitsVal (cs : List Char) : Nat :=
  cs.foldl (fun acc c => acc * 10 + (c.toNat - 48)) 0

/-- The regex match
`str.match(/^(\\d+)\\s*(day|days|week|weeks|month|months)\\s*ago$/)` on the
lowercased, trimmed string: the captured amount and unit. -/
def parseRelative (s : String) : Option (Nat × DateUnit) :=
  let cs := s.toList
  let ds := cs.takeWhile Char.isDigit
  let rest := dropWs (cs.dropWhile Char.isDigit)
  if ds.isEmpty then none
  else
    unitStrs.findSome? fun u =>
      if u.1.isPrefixOf rest && restIsAgo (rest.drop u.1.length) then
        some (digitsVal ds, u.2)
      else none

/-- `parseDate(dateStr)`. The JS month arithmetic (`setMonth(getMonth() - n)`)
and the final direct `new Date(dateStr)` parse (applied to the original,
untrimmed string, as in the source) are oracles `monthsAgo` and
`tryAbsolute`. Relative forms resolve against `now` and truncate to local
midnight; anything else falls to the direct parse, whose failure is `none`. -/
def parseDate (monthsAgo : LocalTime → Nat → LocalTime)
    (tryAbsolute : String → Option LocalTime) (now : LocalTime)
    (dateStr : String) : Option LocalTime :=
  if dateStr.isEmpty then none
  else
    let str := trimStr (lowerStr dateStr)
    if str = "today" then some (atMidnight now)
    else if str = "yesterday" then some (atMidnight (subDays now 1))
    else
      match parseRelative str with
      | some (amount, .day) => some (atMidnight (subDays now amount))
      | some (amount, .week) => some (atMidnight (subDays now (amount * 7)))
      | some (amount, .month) => some (atMidnight (monthsAgo now amount))
      | none => tryAbsolute dateStr

/-- One conjunct of the OData `$filter` expression built by `addFilters`. -/
inductive FilterCond
  | hasAttachmentsEqTrue
  | isReadEqFalse
  | receivedLt (d : LocalTime)
  | receivedGe (d : LocalTime)
deriving Repr, DecidableEq

/-- `addFilters(params, filterTerms)`: the `$filter` conjuncts, in order. A
date bound that is absent, empty, or unparseable contributes nothing. -/
def buildFilterConds (monthsAgo : LocalTime → Nat → LocalTime)
    (tryAbsolute : String → Option LocalTime) (now : LocalTime)
    (ft : FilterTerms) : List FilterCond :=
  (if ft.hasAttachments == some true then [FilterCond.hasAttachmentsEqTrue] else []) ++
  (if ft.unreadOnly == some true then [FilterCond.isReadEqFalse] else []) ++
  (match ft.before with
   | some s =>
     if s.isEmpty then []
     else
       match parseDate monthsAgo tryAbsolute now s with
       | some d => [FilterCond.receivedLt d]
       | none => []
   | none => []) ++
  (match ft.after with
   | some s =>
     if s.isEmpty then []
     else
       match parseDate monthsAgo tryAbsolute now s with
       | some d => [FilterCond.receivedGe d]
       | none => []
   | none => [])

/-! ## Folder resolution (`src/email/folder-utils.js`,
`src/utils/mailbox-path.js`) -/

/-- `getMailboxBasePath(mailbox)`: `'me'` for the primary mailbox,
`users/{email}` for a shared one. -/
def getMailboxBasePath (mailbox : Option String) : String :=
  match mailbox with
  | none => "me"
  | some m => if trimStr m = "" then "me" else "users/" ++ trimStr m

/-- `getWellKnownFolders(mailbox)` as a lookup by folder name. -/
def getWellKnownFolders (mailbox : Option String) (name : String) : Option String :=
  let basePath := getMailboxBasePath mailbox
  if name = "inbox" then some (basePath ++ "/mailFolders/inbox/messages")
  else if name = "drafts" then some (basePath ++ "/mailFolders/drafts/messages")
  else if name = "sent" then some (basePath ++ "/mailFolders/sentItems/messages")
  else if name = "deleted" then some (basePath ++ "/mailFolders/deletedItems/messages")
  else if name = "junk" then some (basePath ++ "/mailFolders/junkemail/messages")
  else if name = "archive" then some (basePath ++ "/mailFolders/archive/messages")
  else none

/-- `resolveFolderPath(accessToken, folderName, mailbox)`. The
`getFolderIdByName` call is abstracted as its outcome `lookup`:
`.ok (some id)` a resolved folder id, `.ok none` no match (that function
catches its own errors and returns null), `.error` a failure escaping the
lookup, caught by the surrounding try. -/
def resolveFolderPath (lookup : Except String (Option String))
    (folderName : Option String) (mailbox : Option String) : String :=
  let inbox := (getWellKnownFolders mailbox "inbox").getD ""
  match folderName with
  | none => inbox
  | some fn =>
    if fn.isEmpty then inbox
    else
      match getWellKnownFolders mailbox (lowerStr fn) with
      | some p => p
      | none =>
        match lookup with
        | .ok (some fid) =>
          getMailboxBasePath mailbox ++ "/mailFolders/" ++ fid ++ "/messages"
        | .ok none => inbox
        | .error _ => inbox

theorem callGraphAPIPaginated_spec (server : Nat → Nat → List Item)
    (hserver : ∀ p n, (server p n).length ≤ n) :
    ∀ (remaining page : Nat),
      (callGraphAPIPaginated server page remaining).1.length ≤ remaining ∧
      PageSizesOk remaining (callGraphAPIPaginated server page remaining).2 := by
  intro remaining
  induction remaining using Nat.strong_induction_on with
  | _ remaining ih =>
    intro page
    rw [callGraphAPIPaginated]
    by_cases h0 : remaining = 0
    · subst h0
      exact ⟨by simp, by simp; exact PageSizesOk.nil 0⟩
    · simp only [dif_neg h0]
      by_cases hshort : (server page (min 50 remaining)).length < min 50 remaining
      · simp only [if_pos hshort]
        refine ⟨?_, ?_⟩
        · have h := hserver page (min 50 remaining)
          show (server page (min 50 remaining)).length ≤ remaining
          omega
        · exact PageSizesOk.cons remaining [] (by omega) (PageSizesOk.nil _)
      · simp only [if_neg hshort]
        have hlen : (server page (min 50 remaining)).length = min 50 remaining :=
          Nat.le_antisymm (hserver page (min 50 remaining)) (Nat.le_of_not_lt hshort)
        have hrec := ih (remaining - min 50 remaining) (by omega) (page + 1)
        refine ⟨?_, ?_⟩
        · show ((server page (min 50 remaining)) ++
              (callGraphAPIPaginated server (page + 1) (remaining - min 50 remaining)).1).length ≤
                remaining
          rw [List.length_append]
          have h := hrec.1
          omega
        · exact PageSizesOk.cons remaining _ (by omega) hrec.2

/-- Claim C7: the paginated fetch never returns more items than the
requested maximum; every page request is sized to the minimum of the fixed
server page cap (50) and the remaining budget, and no page is requested once
the budget is exhausted; and every call site's `$top` parameter
(`progressiveSearch`'s strategies and `handleListEmails`) is
`min(50, requested count)`, matching the first page request. -/
theorem paginated_fetch_budget (server : Nat → Nat → List Item)
    (hserver : ∀ p n, (server p n).length ≤ n) (maxItems page : Nat) :
    (callGraphAPIPaginated server page maxItems).1.length ≤ maxItems ∧
    PageSizesOk maxItems (callGraphAPIPaginated server page maxItems).2 ∧
    callGraphAPIPaginated server page 0 = ([], []) ∧
    (0 < maxItems →
      (callGraphAPIPaginated server page maxItems).2.head? = some (min 50 maxItems)) ∧
    searchTopParam maxItems = min 50 maxItems ∧
    listEmailsTopParam maxItems = min 50 maxItems := by
  obtain ⟨h1, h2⟩ := callGraphAPIPaginated_spec server hserver maxItems page
  refine ⟨h1, h2, by rw [callGraphAPIPaginated]; simp, ?_, rfl, rfl⟩
  intro hpos
  rw [callGraphAPIPaginated]
  have h0 : ¬maxItems = 0 := by omega
  simp only [dif_neg h0]
  by_cases hshort : (server page (min 50 maxItems)).length < min 50 maxItems
  · simp [hshort]
  · simp [hshort]

/-- Closed witness for `paginated_fetch_budget`: a server answering at most
10 items per page against a budget of 25. -/
theorem paginated_fetch_budget_witness :
    (callGraphAPIPaginated (fun _ n => List.replicate (min n 10) "x") 0 25).1.length ≤ 25 ∧
    (callGraphAPIPaginated (fun _ n => List.replicate (min n 10) "x") 0 25).2.head? =
      some (min 50 25) :=
  ⟨(paginated_fetch_budget (fun _ n => List.replicate (min n 10) "x")
      (fun _ n => by simp) 25 0).1,
    (paginated_fetch_budget (fun _ n => List.replicate (min n 10) "x")
      (fun _ n => by simp) 25 0).2.2.2.1 (by omega)⟩

theorem parseDate_of_relative (monthsAgo : LocalTime → Nat → LocalTime)
    (tryAbsolute : String → Option LocalTime) (now : LocalTime) (s : String)
    (n : Nat) (u : DateUnit) (hne : s.isEmpty = false)
    (hrel : parseRelative (trimStr (lowerStr s)) = some (n, u)) :
    parseDate monthsAgo tryAbsolute now s =
      some (match u with
        | .day => atMidnight (subDays now n)
        | .week => atMidnight (subDays now (n * 7))
        | .month => atMidnight (monthsAgo now n)) := by
  have htoday : parseRelative "today" = none := by decide
  have hyest : parseRelative "yesterday" = none := by decide
  have h1 : trimStr (lowerStr s) ≠ "today" := fun hc => by
    rw [hc, htoday] at hrel
    cases hrel
  have h2 : trimStr (lowerStr s) ≠ "yesterday" := fun hc => by
    rw [hc, hyest] at hrel
    cases hrel
  simp only [parseDate, hne, Bool.false_eq_true, if_false, if_neg h1, if_neg h2, hrel]
  cases u <;> rfl

/-- Claim C9: `parseDate "2 weeks ago"` yields the reference instant minus
14 days at local midnight; every string the relative pattern recognises as
`n` day(s)/week(s) ago subtracts `n` (resp. `7 n`) days and truncates to
local midnight; `"today"`/`"yesterday"` yield the current/previous day at
local midnight; a string matching no recognised form whose direct date parse
also fails yields `none`; and `addFilters` silently drops an unparseable
`before` bound — no `receivedDateTime lt` condition is emitted. -/
theorem parseDate_spec (monthsAgo : LocalTime → Nat → LocalTime)
    (tryAbsolute : String → Option LocalTime) (now : LocalTime) :
    parseDate monthsAgo tryAbsolute now "2 weeks ago" =
      some (atMidnight (subDays now 14)) ∧
    (∀ s n, s.isEmpty = false → parseRelative (trimStr (lowerStr s)) = some (n, .day) →
      parseDate monthsAgo tryAbsolute now s = some (atMidnight (subDays now n))) ∧
    (∀ s n, s.isEmpty = false → parseRelative (trimStr (lowerStr s)) = some (n, .week) →
      parseDate monthsAgo tryAbsolute now s = some (atMidnight (subDays now (n * 7)))) ∧
    parseDate monthsAgo tryAbsolute now "today" = some (atMidnight now) ∧
    parseDate monthsAgo tryAbsolute now "yesterday" =
      some (atMidnight (subDays now 1)) ∧
    (∀ s, trimStr (lowerStr s) ≠ "today" → trimStr (lowerStr s) ≠ "yesterday" →
      parseRelative (trimStr (lowerStr s)) = none → tryAbsolute s = none →
      parseDate monthsAgo tryAbsolute now s = none) ∧
    (∀ ft s, ft.before = some s → s.isEmpty = false →
      parseDate monthsAgo tryAbsolute now s = none →
      ∀ d, FilterCond.receivedLt d ∉ buildFilterConds monthsAgo tryAbsolute now ft) := by
  refine ⟨?_, ?_, ?_, ?_, ?_, ?_, ?_⟩
  · exact parseDate_of_relative monthsAgo tryAbsolute now "2 weeks ago" 2 .week
      (by decide) (by decide)
  · intro s n hne hrel
    exact parseDate_of_relative monthsAgo tryAbsolute now s n .day hne hrel
  · intro s n hne hrel
    exact parseDate_of_relative monthsAgo tryAbsolute now s n .week hne hrel
  · have h1 : ("today" : String).isEmpty = false := by decide
    have h2 : trimStr (lowerStr "today") = "today" := by decide
    simp [parseDate, h1, h2]
  · have h1 : ("yesterday" : String).isEmpty = false := by decide
    have h2 : trimStr (lowerStr "yesterday") = "yesterday" := by decide
    have h3 : ("yesterday" : String) ≠ "today" := by decide
    simp [parseDate, h1, h2, h3]
  · intro s h1 h2 hrel habs
    by_cases hne : s.isEmpty
    · simp [parseDate, hne]
    · have hne2 : s.isEmpty = false := by
        revert hne
        cases s.isEmpty <;> simp
      simp [parseDate, hne2, h1, h2, hrel, habs]
  · intro ft s hb hne hparse d hmem
    simp only [buildFilterConds, hb, hne, hparse, Bool.false_eq_true, if_false,
      List.mem_append] at hmem
    rcases hmem with ((hA | hB) | hC) | hD
    · revert hA
      split <;> simp
    · revert hB
      split <;> simp
    · simp at hC
    · revert hD
      cases hfa : ft.after with
      | none => simp
      | some s2 =>
        by_cases hE : s2.isEmpty
        · simp [hE]
        · cases hp2 : parseDate monthsAgo tryAbsolute now s2 with
          | some d2 => simp [hE, hp2]
          | none => simp [hE, hp2]

/-- Closed witness for `parseDate_spec`: concrete oracles and reference
instant; "2 weeks ago" lands 14 days back at midnight, an unrecognised
string yields `none`. -/
theorem parseDate_spec_witness :
    parseDate (fun t _ => t) (fun _ => none) ⟨100, 5⟩ "2 weeks ago" =
      some ⟨86, 0⟩ ∧
    parseDate (fun t _ => t) (fun _ => none) ⟨100, 5⟩ "not-a-date" = none :=
  ⟨((parseDate_spec (fun t _ => t) (fun _ => none) ⟨100, 5⟩).1).trans (by decide),
    (parseDate_spec (fun t _ => t) (fun _ => none) ⟨100, 5⟩).2.2.2.2.2.1
      "not-a-date" (by decide) (by decide) (by decide) rfl⟩

/-- Claim C10: a non-well-known folder name that cannot be resolved to a
folder id — whether the lookup finds nothing or raises an error — makes
`resolveFolderPath` silently return the inbox endpoint path for the given
mailbox; no error is surfaced. -/
theorem resolveFolderPath_fallback (mailbox : Option String) (fn : String)
    (lookup : Except String (Option String))
    (hwk : getWellKnownFolders mailbox (lowerStr fn) = none)
    (hfail : lookup = .ok none ∨ ∃ e, lookup = .error e) :
    resolveFolderPath lookup (some fn) mailbox =
        (getWellKnownFolders mailbox "inbox").getD "" ∧
      (getWellKnownFolders mailbox "inbox").getD "" =
        getMailboxBasePath mailbox ++ "/mailFolders/inbox/messages" := by
  refine ⟨?_, by simp [getWellKnownFolders]⟩
  by_cases hne : fn.isEmpty
  · simp [resolveFolderPath, hne]
  · rcases hfail with h | ⟨e, h⟩ <;> simp [resolveFolderPath, hne, hwk, h]

/-- Closed witness for `resolveFolderPath_fallback`: an unknown folder name
with a failing lookup resolves to the primary mailbox's inbox path. -/
theorem resolveFolderPath_fallback_witness :
    resolveFolderPath (.error "boom") (some "NoSuchFolder") none =
      "me/mailFolders/inbox/messages" :=
  ((resolveFolderPath_fallback none "NoSuchFolder" (.error "boom") (by decide)
      (Or.inr ⟨"boom", rfl⟩)).1).trans (by decide)

end OutlookMcp
